import Mathlib

/-!
Shallow embedding of `main.go` from xyproto/nqueens: an N-queens solver
driven by a genetic algorithm.  Pure functions of the Go source are
translated into Lean functions; the in-place board/population mutation is
translated into explicit state passing (each mutating Go function returns
the updated value).  Go `uint` arithmetic is modelled as `Nat` with an
explicit wrap modulo `2 ^ 64` where under/overflow can occur.  The
process-wide random source is modelled by passing each random draw as an
explicit argument at its call site.
-/

namespace NQueens

/-! ### Constants (`const` block of main.go) -/

def QUEENS : ℕ := 20
def BOARDSIZE : ℕ := 20
def POPSIZE : ℕ := 2000
def MAXGENERATIONS : ℕ := 3000

/-- `PosType`: a free space, queen or space "covered" by a queen. -/
inductive PosType where
  | FREE
  | QUEEN
  | COVERED
deriving DecidableEq, Repr

open PosType

/-- A solution is a list of free-position indices (`[]FreePosIndex`). -/
abbrev Solution := List ℕ

/-- A board is `width * width` positions (`data []PosType`). -/
structure Board where
  width : ℕ
  data : List PosType
deriving DecidableEq, Repr

/-- `NewBoard`: Go `make([]PosType, w*w)` zero-initializes, and the zero
value of `PosType` is `FREE`. -/
def NewBoard (w : ℕ) : Board := ⟨w, List.replicate (w * w) FREE⟩

/-- `NewSolution`: Go `make([]FreePosIndex, numqueens)` zero-initializes,
so this is the all-zero genome. -/
def NewSolution (numqueens : ℕ) : Solution := List.replicate numqueens 0

/-- `NewRandomSolution`: each gene is `rand.Intn(maxboardpos)`; the random
draws are passed explicitly, gene `i` being `draws i`.  A faithful oracle
satisfies `draws i < maxboardpos` for all `i`. -/
def NewRandomSolution (numqueens : ℕ) (draws : ℕ → ℕ) : Solution :=
  (List.range numqueens).map draws

/-- Go `uint` word size. -/
def U64 : ℕ := 2 ^ 64

/-- Go `uint` subtraction `a - b` (wraps modulo `2 ^ 64`), for `a b < 2 ^ 64`. -/
def u64sub (a b : ℕ) : ℕ := (a + (U64 - b)) % U64

/-- The cells visited by the scan in `pos2xy`: outer loop over `p.y`,
inner loop over `p.x`, both in `[0, BOARDSIZE)`, with a running counter
`i`; the cell visited at counter value `i` is element `i` of this list. -/
def boardCoords : List (ℕ × ℕ) :=
  (List.range BOARDSIZE).flatMap (fun y => (List.range BOARDSIZE).map (fun x => (x, y)))

/-- `pos2xy`: returns the coordinates at which the running counter equals
`pos`, or `(255, 255)` if the scan completes without reaching `pos`. -/
def pos2xy (pos : ℕ) : ℕ × ℕ := (boardCoords[pos]?).getD (255, 255)

/-- One iteration of the covering double loop in `place`, at cell `(x, y)`:
up to three conditional writes of `COVERED`.  The Go guards `diagx >= 0`
and `diagy >= 0` are vacuous on `uint` and the wrapped value of an
underflowing subtraction is what the `< width` bounds are tested against. -/
def coverCell (o : ℕ × ℕ) (width height maxx : ℕ) (d : List PosType) (x y : ℕ) :
    List PosType :=
  let d1 := if o.1 = x ∨ o.2 = y then d.set (y * width + x) COVERED else d
  let d2 :=
    if x = y then
      let diagx := u64sub (x + o.1) o.2
      let diagy := y
      if diagx < width ∧ diagy < height then d1.set (diagy * width + diagx) COVERED else d1
    else d1
  if u64sub maxx x = y then
    let diagx := (u64sub x (u64sub maxx o.1) + o.2) % U64
    let diagy := u64sub (y + o.2) o.2
    if diagx < BOARDSIZE ∧ diagy < height then d2.set (diagy * width + diagx) COVERED else d2
  else d2

/-- The body of the success branch of `place`: run the covering double
loop (outer `y`, inner `x`) over the whole board, then mark the chosen
cell `QUEEN`.  The source's locals are inlined: `height = width` and
`maxx = width - 1`. -/
def markBoard (b : Board) (usepos : ℕ) : Board :=
  ⟨b.width,
    ((List.range b.width).foldl
      (fun d y => (List.range b.width).foldl
        (fun d x => coverCell (pos2xy usepos) b.width b.width (b.width - 1) d x y) d)
      b.data).set usepos QUEEN⟩

/-- The scan loop of `place`: `usepos` runs over the remaining cell
indices, `freepos` counts the `FREE` cells already passed. -/
def placeGo (b : Board) (targetpos : ℕ) : List ℕ → ℕ → Option ℕ × Board
  | [], _ => (none, b)
  | usepos :: rest, freepos =>
    if targetpos = freepos ∧ b.data.getD usepos FREE = FREE then
      (some usepos, markBoard b usepos)
    else
      placeGo b targetpos rest
        (if b.data.getD usepos FREE = FREE then freepos + 1 else freepos)

/-- `Board.place`: place a queen at the `targetpos`-th free position.
Returns the chosen board index (or `none` for the "No available position"
error) together with the board state after the call. -/
def place (b : Board) (targetpos : ℕ) : Option ℕ × Board :=
  placeGo b targetpos (List.range (b.width * b.width)) 0

/-- One iteration of the loop in `generateBoard`: on a successful
placement the queen counter is incremented; either way the board is
whatever `place` left behind. -/
def decodeStep (s : Board × ℕ) (g : ℕ) : Board × ℕ :=
  match place s.1 g with
  | (some _, b) => (b, s.2 + 1)
  | (none, b) => (b, s.2)

/-- `Solution.generateBoard`: decode a genome on a fresh board, returning
the board and the number of successfully placed queens. -/
def generateBoard (sol : Solution) : Board × ℕ :=
  sol.foldl decodeStep (NewBoard BOARDSIZE, 0)

/-- `Solution.fitness`: queens placed divided by `QUEENS`.  The Go version
divides two small exact `float64` values; it is modelled in `ℚ`. -/
def fitness (sol : Solution) : ℚ :=
  ((generateBoard sol).2 : ℚ) / (QUEENS : ℚ)

/-- `crossover`: start from `NewSolution numqueens`, copy `a`'s genes at
indices `0..point-1`, then `b`'s genes at indices `point..numqueens-1`. -/
def crossover (a b : Solution) (point numqueens : ℕ) : Solution :=
  let c := NewSolution numqueens
  let c := (List.range point).foldl (fun c i => c.set i (a.getD i 0)) c
  (List.range' point (numqueens - point)).foldl (fun c i => c.set i (b.getD i 0)) c

/-- `Solution.mutate`: overwrite the gene at `randpos` (a draw from
`rand.Intn(numqueens)`) with `randval` (a draw from
`rand.Intn(maxboardpos)`). -/
def mutate (sol : Solution) (randpos randval : ℕ) : Solution :=
  sol.set randpos randval

/-- The best/runner-up selection loop of `main`: for each fitness value
`f` at index `i`, if `bestfitness <= f` (Go `fit[i] >= bestfitness`) shift
best/bestIndex into next/nextIndex and take over.  State layout:
`(bestfitness, bestfitnessindex, nextbestfitness, nextbestfitnessindex)`. -/
def selectLoop : List ℚ → ℕ → ℚ × ℕ × ℚ × ℕ → ℚ × ℕ × ℚ × ℕ
  | [], _, st => st
  | f :: rest, i, (best, bestIdx, next, nextIdx) =>
    if best ≤ f then selectLoop rest (i + 1) (f, i, best, bestIdx)
    else selectLoop rest (i + 1) (best, bestIdx, next, nextIdx)

/-- The per-generation selection scan.  `bestfitness`, `nextbestfitness`
and `nextbestfitnessindex` are (re)initialized to `0.0`, `0.0` and `0`
before the scan, but `bestfitnessindex` is declared outside the generation
loop and carries its value over from the previous generation. -/
def selectBest (fit : List ℚ) (bestfitnessindex : ℕ) : ℚ × ℕ × ℚ × ℕ :=
  selectLoop fit 0 (0, bestfitnessindex, 0, 0)

/-- The replacement-by-reset chain at the top of the per-individual
operator pass (lines 287-298 of main.go).  `rReplace` models the
`rand.Float64()` draw of the 50% branch. -/
def replacementPhase (pop : List Solution) (i : ℕ) (f average rReplace : ℚ) :
    List Solution :=
  if average > 0.7 ∧ f < 0.5 then pop.set i (NewSolution QUEENS)
  else if average > 0.8 ∧ f < 0.6 then pop.set i (NewSolution QUEENS)
  else if average > 0.9 ∧ f < 0.7 then pop.set i (NewSolution QUEENS)
  else if f < average * 0.3 then
    if rReplace ≤ 0.5 then pop.set i (NewSolution QUEENS) else pop
  else pop

/-- The whole per-individual body of the operator pass (lines 285-333):
replacement chain, adaptive rates, elitism skip, mutation of a random
individual, crossover of the elite pair into slot `i`, and the
new-random-variation overwrite.  Every `rand` draw is an explicit
argument, named after its call site. -/
def operatorStep (pop : List Solution) (i : ℕ) (fit : List ℚ)
    (average bestfitness nextbestfitness : ℚ)
    (bestfitnessindex nextbestfitnessindex : ℕ)
    (rReplace rElite rMut rCross rNew : ℚ)
    (mutTarget mutPos mutVal crossoverpoint : ℕ) : List Solution :=
  let f := fit.getD i 0
  let pop := replacementPhase pop i f average rReplace
  let mutrate : ℚ := if bestfitness > average then 0.15 else 0.4
  let crossrate : ℚ := if bestfitness > average then 0.07 else 0.4
  let mutrate := if bestfitness = nextbestfitness then mutrate * 3 else mutrate
  let newpoprate : ℚ := if average > 0.9 then 0.4 else 0.2
  if f > bestfitness * 0.9 ∧ rElite ≤ 0.9 then pop
  else
    let pop := if rMut ≤ mutrate then
        pop.set mutTarget (mutate (pop.getD mutTarget []) mutPos mutVal)
      else pop
    let pop := if rCross ≤ crossrate then
        pop.set i (crossover (pop.getD bestfitnessindex []) (pop.getD nextbestfitnessindex [])
          crossoverpoint QUEENS)
      else pop
    if rNew ≤ newpoprate then pop.set i (NewSolution QUEENS) else pop

/-! ### Specification-side definitions, used to state the claims -/

/-- Well-formed board: the shape every board of the program has. -/
def WF (b : Board) : Prop := b.width = 20 ∧ b.data.length = 400

/-- Queen attack relation on coordinates: same column, same row, same
"\" diagonal (`x - y` constant, phrased additively) or same "/" diagonal
(`x + y` constant). -/
def attacksP (o p : ℕ × ℕ) : Prop :=
  p.1 = o.1 ∨ p.2 = o.2 ∨ p.1 + o.2 = o.1 + p.2 ∨ p.1 + p.2 = o.1 + o.2

instance (o p : ℕ × ℕ) : Decidable (attacksP o p) := by
  unfold attacksP; exact inferInstance

/-- Number of `FREE` cells on a board. -/
def numFree (b : Board) : ℕ := b.data.countP (fun c => decide (c = FREE))

/-- Number of `QUEEN` cells on a board. -/
def countQueens (b : Board) : ℕ := b.data.countP (fun c => decide (c = QUEEN))

/-- Every queen on the board has all cells it attacks marked `COVERED`. -/
def queensSeparated (b : Board) : Prop :=
  ∀ i, i < 400 → b.data.getD i FREE = QUEEN →
    ∀ j, j < 400 → j ≠ i → attacksP (pos2xy i) (pos2xy j) →
      b.data.getD j FREE = COVERED

/-- The list of board indices written by `coverCell` at cell `(x, y)`,
in write order: used to characterize the covering pass. -/
def covTargets (o : ℕ × ℕ) (width height maxx x y : ℕ) : List ℕ :=
  (if o.1 = x ∨ o.2 = y then [y * width + x] else []) ++
  ((if x = y then
      (if u64sub (x + o.1) o.2 < width ∧ y < height then
        [y * width + u64sub (x + o.1) o.2] else [])
    else []) ++
  (if u64sub maxx x = y then
      (if (u64sub x (u64sub maxx o.1) + o.2) % U64 < BOARDSIZE ∧
          u64sub (y + o.2) o.2 < height then
        [u64sub (y + o.2) o.2 * width + (u64sub x (u64sub maxx o.1) + o.2) % U64] else [])
    else []))

/-! ### Generic list helpers -/

lemma getD_set {α : Type} (l : List α) (i j : ℕ) (v d : α) :
    (l.set i v).getD j d = if i = j ∧ j < l.length then v else l.getD j d := by
  induction l generalizing i j with
  | nil => simp
  | cons a t ih =>
    cases i with
    | zero =>
      cases j with
      | zero => simp
      | succ j => simp
    | succ i =>
      cases j with
      | zero => simp
      | succ j =>
        simp only [List.set_cons_succ, List.getD_cons_succ, ih i j, List.length_cons]
        have hiff : (i + 1 = j + 1 ∧ j + 1 < t.length + 1) ↔ (i = j ∧ j < t.length) := by
          omega
        rw [if_congr hiff rfl rfl]

lemma getD_of_length_le {α : Type} (l : List α) (j : ℕ) (d : α) (h : l.length ≤ j) :
    l.getD j d = d := by
  rw [List.getD_eq_getElem?_getD, List.getElem?_eq_none (by omega)]
  rfl

lemma foldl_set_length {α : Type} (v : ℕ → α) (L : List ℕ) (c : List α) :
    (L.foldl (fun c i => c.set i (v i)) c).length = c.length := by
  induction L generalizing c with
  | nil => rfl
  | cons i L ih => simp [ih]

lemma foldl_set_getD {α : Type} (v : ℕ → α) (L : List ℕ) (c : List α) (j : ℕ) (d : α) :
    (L.foldl (fun c i => c.set i (v i)) c).getD j d =
      if j ∈ L ∧ j < c.length then v j else c.getD j d := by
  induction L generalizing c with
  | nil => simp
  | cons i L ih =>
    simp only [List.foldl_cons]
    rw [ih]
    simp only [List.length_set]
    rw [getD_set]
    by_cases hlen : j < c.length
    · by_cases hL : j ∈ L
      · simp [hL, hlen, List.mem_cons]
      · by_cases hij : i = j
        · subst hij
          simp [hL, hlen, List.mem_cons]
        · simp [hL, hlen, hij, List.mem_cons, Ne.symm hij]
    · simp [hlen]

lemma foldl_flatMap {α β γ : Type} (f : α → γ → α) (g : β → List γ) (L : List β) (a : α) :
    L.foldl (fun d x => (g x).foldl f d) a = (L.flatMap g).foldl f a := by
  induction L generalizing a with
  | nil => rfl
  | cons x L ih => simp [List.flatMap_cons, List.foldl_append, ih]

lemma countP_range_getD {α : Type} (l : List α) (d : α) (q : α → Bool) :
    (List.range l.length).countP (fun i => q (l.getD i d)) = l.countP q := by
  induction l with
  | nil => simp
  | cons a t ih =>
    rw [List.length_cons, List.range_succ_eq_map, List.countP_cons, List.countP_map]
    simp only [Function.comp_def, List.getD_cons_succ, List.getD_cons_zero]
    rw [ih, List.countP_cons]

lemma getD_replicate {α : Type} (n i : ℕ) (a d : α) (h : i < n) :
    (List.replicate n a).getD i d = a := by
  induction n generalizing i with
  | zero => omega
  | succ n ih =>
    cases i with
    | zero => simp [List.replicate_succ]
    | succ i =>
      rw [List.replicate_succ, List.getD_cons_succ]
      exact ih i (by omega)

lemma getD_append_cons {α : Type} (xs zs : List α) (y : α) (d : α) :
    (xs ++ y :: zs).getD xs.length d = y := by
  induction xs with
  | nil => simp
  | cons a t ih => simpa using ih

/-! ### Arithmetic of the wrapped Go uint subtraction -/

lemma U64_eq : U64 = 18446744073709551616 := by norm_num [U64]

lemma u64sub_def (a b : ℕ) :
    u64sub a b = (a + (18446744073709551616 - b)) % 18446744073709551616 := by
  rw [u64sub, U64_eq]

/-! ### pos2xy computes row-major coordinates -/

set_option maxRecDepth 10000 in
lemma boardCoords_eq :
    boardCoords = (List.range 400).map (fun i => (i % 20, i / 20)) := by decide

lemma pos2xy_eq {pos : ℕ} (h : pos < 400) : pos2xy pos = (pos % 20, pos / 20) := by
  rw [pos2xy, boardCoords_eq, List.getElem?_map, List.getElem?_range h]
  rfl

/-! ### The covering pass of `place` -/

lemma coverCell_eq (o : ℕ × ℕ) (w h maxx x y : ℕ) (d : List PosType) :
    coverCell o w h maxx d x y =
      (covTargets o w h maxx x y).foldl (fun c i => c.set i COVERED) d := by
  unfold coverCell covTargets
  simp only [List.foldl_append]
  split_ifs <;> simp [List.foldl]

lemma mem_ite_singleton {c : Prop} [Decidable c] {a j : ℕ} :
    j ∈ (if c then [a] else ([] : List ℕ)) ↔ c ∧ j = a := by
  split_ifs <;> simp_all

lemma mem_ite_ite_singleton {c d : Prop} [Decidable c] [Decidable d] {a j : ℕ} :
    j ∈ (if c then (if d then [a] else []) else ([] : List ℕ)) ↔ c ∧ d ∧ j = a := by
  split_ifs <;> simp_all

lemma mem_covTargets {o : ℕ × ℕ} {w h maxx x y j : ℕ} :
    j ∈ covTargets o w h maxx x y ↔
      ((o.1 = x ∨ o.2 = y) ∧ j = y * w + x) ∨
      (x = y ∧ (u64sub (x + o.1) o.2 < w ∧ y < h) ∧
        j = y * w + u64sub (x + o.1) o.2) ∨
      (u64sub maxx x = y ∧
        ((u64sub x (u64sub maxx o.1) + o.2) % U64 < BOARDSIZE ∧
          u64sub (y + o.2) o.2 < h) ∧
        j = u64sub (y + o.2) o.2 * w + (u64sub x (u64sub maxx o.1) + o.2) % U64) := by
  unfold covTargets
  simp only [List.mem_append, mem_ite_singleton, mem_ite_ite_singleton]

/-- The union of the covering writes over the whole double loop is exactly
the set of in-board cells sharing a row, column or diagonal with the
queen's cell: underflowing diagonal coordinates wrap to huge values and
fail the `< 20` guards, so off-board diagonal cells are skipped. -/
lemma covTargets_cover_iff {u j : ℕ} (hu : u < 400) (hj : j < 400) :
    (∃ y ∈ List.range 20, ∃ x ∈ List.range 20,
        j ∈ covTargets (pos2xy u) 20 20 19 x y) ↔
      attacksP (pos2xy u) (pos2xy j) := by
  rw [pos2xy_eq hu, pos2xy_eq hj]
  simp only [List.mem_range, attacksP]
  constructor
  · rintro ⟨y, hy, x, hx, hmem⟩
    rw [mem_covTargets] at hmem
    simp only [u64sub_def, U64_eq, BOARDSIZE] at hmem
    rcases hmem with ⟨hc, hj'⟩ | ⟨hc, hg, hj'⟩ | ⟨hc, hg, hj'⟩ <;> omega
  · intro hatt
    rcases hatt with hcol | hrow | hdiag | hanti
    · refine ⟨j / 20, by omega, j % 20, by omega, ?_⟩
      rw [mem_covTargets]
      left
      constructor
      · left; omega
      · omega
    · refine ⟨j / 20, by omega, j % 20, by omega, ?_⟩
      rw [mem_covTargets]
      left
      constructor
      · right; omega
      · omega
    · refine ⟨j / 20, by omega, j / 20, by omega, ?_⟩
      rw [mem_covTargets]
      right; left
      refine ⟨rfl, ?_, ?_⟩ <;> simp only [u64sub_def, U64_eq] <;> omega
    · refine ⟨j / 20, by omega, 19 - j / 20, by omega, ?_⟩
      rw [mem_covTargets]
      right; right
      have hdy : (j / 20 + u / 20 + (18446744073709551616 - u / 20)) %
          18446744073709551616 = j / 20 := by omega
      refine ⟨?_, ⟨?_, ?_⟩, ?_⟩
      · simp only [u64sub_def, U64_eq]; omega
      · simp only [u64sub_def, U64_eq, BOARDSIZE]; omega
      · simp only [u64sub_def, U64_eq]; rw [hdy]; omega
      · simp only [u64sub_def, U64_eq, BOARDSIZE]; omega

/-! ### Characterization of `markBoard` -/

lemma markBoard_data (b : Board) (u : ℕ) :
    (markBoard b u).data =
      (((List.range b.width).flatMap (fun y => (List.range b.width).flatMap
          (fun x => covTargets (pos2xy u) b.width b.width (b.width - 1) x y))).foldl
        (fun c i => c.set i COVERED) b.data).set u QUEEN := by
  unfold markBoard
  simp only [coverCell_eq, foldl_flatMap]

lemma markBoard_width (b : Board) (u : ℕ) : (markBoard b u).width = b.width := rfl

lemma markBoard_length (b : Board) (u : ℕ) :
    (markBoard b u).data.length = b.data.length := by
  rw [markBoard_data, List.length_set]
  exact foldl_set_length (fun _ => COVERED) _ _

lemma markBoard_getD (b : Board) (hw : b.width = 20) (hl : b.data.length = 400)
    {u : ℕ} (hu : u < 400) {j : ℕ} (hj : j < 400) :
    (markBoard b u).data.getD j FREE =
      if j = u then QUEEN
      else if attacksP (pos2xy u) (pos2xy j) then COVERED
      else b.data.getD j FREE := by
  rw [markBoard_data, hw]
  have h19 : (20 : ℕ) - 1 = 19 := rfl
  rw [h19]
  have hlen : (((List.range 20).flatMap (fun y => (List.range 20).flatMap
      (fun x => covTargets (pos2xy u) 20 20 19 x y))).foldl
        (fun c i => c.set i COVERED) b.data).length = 400 := by
    rw [foldl_set_length (fun _ => COVERED)]
    exact hl
  rw [getD_set]
  have hmem : (j ∈ (List.range 20).flatMap (fun y => (List.range 20).flatMap
      (fun x => covTargets (pos2xy u) 20 20 19 x y))) ↔
      attacksP (pos2xy u) (pos2xy j) := by
    simp only [List.mem_flatMap]
    rw [← covTargets_cover_iff hu hj]
  by_cases hju : j = u
  · simp [hju, hlen, hu]
  · rw [if_neg (by exact fun hc => hju hc.1.symm), if_neg hju]
    rw [foldl_set_getD (fun _ => COVERED)]
    by_cases hatt : attacksP (pos2xy u) (pos2xy j)
    · rw [if_pos ⟨hmem.mpr hatt, by omega⟩, if_pos hatt]
    · rw [if_neg (fun hc => hatt (hmem.mp hc.1)), if_neg hatt]

/-! ### The scan loop of `place` -/

lemma placeGo_none_iff (b : Board) (t : ℕ) :
    ∀ (L : List ℕ) (f : ℕ), f ≤ t →
      ((placeGo b t L f).1 = none ↔
        L.countP (fun p => decide (b.data.getD p FREE = FREE)) ≤ t - f) := by
  intro L
  induction L with
  | nil =>
    intro f hf
    simp [placeGo]
  | cons p L ih =>
    intro f hf
    simp only [placeGo]
    have hone : (if (true : Bool) = true then 1 else 0) = 1 := rfl
    have hzero : (if (false : Bool) = true then 1 else 0) = 0 := rfl
    by_cases hfree : b.data.getD p FREE = FREE
    · have hp : (decide (b.data.getD p FREE = FREE)) = true := decide_eq_true hfree
      by_cases ht : t = f
      · rw [if_pos ⟨ht, hfree⟩]
        subst ht
        rw [List.countP_cons, hp, hone]
        simp
      · rw [if_neg (fun hc => ht hc.1), if_pos hfree, ih (f + 1) (by omega),
          List.countP_cons, hp, hone]
        omega
    · have hp : (decide (b.data.getD p FREE = FREE)) = false := decide_eq_false hfree
      rw [if_neg (fun hc => hfree hc.2), if_neg hfree, ih f hf,
        List.countP_cons, hp, hzero]
      omega

lemma placeGo_none_eq (b : Board) (t : ℕ) :
    ∀ (L : List ℕ) (f : ℕ), (placeGo b t L f).1 = none → placeGo b t L f = (none, b) := by
  intro L
  induction L with
  | nil => intro f _; rfl
  | cons p L ih =>
    intro f h
    simp only [placeGo] at h ⊢
    by_cases hc : t = f ∧ b.data.getD p FREE = FREE
    · rw [if_pos hc] at h
      simp at h
    · rw [if_neg hc] at h ⊢
      exact ih _ h

lemma placeGo_some (b : Board) (t : ℕ) :
    ∀ (L : List ℕ) (f u : ℕ) (b₂ : Board), placeGo b t L f = (some u, b₂) →
      u ∈ L ∧ b.data.getD u FREE = FREE ∧ b₂ = markBoard b u := by
  intro L
  induction L with
  | nil =>
    intro f u b₂ h
    exact absurd h (by simp [placeGo])
  | cons p L ih =>
    intro f u b₂ h
    simp only [placeGo] at h
    by_cases hc : t = f ∧ b.data.getD p FREE = FREE
    · rw [if_pos hc] at h
      rw [Prod.mk.injEq] at h
      obtain ⟨h1, h2⟩ := h
      rw [Option.some.injEq] at h1
      subst h1
      exact ⟨List.mem_cons_self _ _, hc.2, h2.symm⟩
    · rw [if_neg hc] at h
      obtain ⟨hm, hf, hb⟩ := ih _ _ _ h
      exact ⟨List.mem_cons_of_mem _ hm, hf, hb⟩

lemma place_none_iff (b : Board) (hw : b.width = 20) (hl : b.data.length = 400) (t : ℕ) :
    (place b t).1 = none ↔ numFree b ≤ t := by
  unfold place
  rw [placeGo_none_iff b t _ 0 (Nat.zero_le t), Nat.sub_zero, hw]
  have h400 : (20 : ℕ) * 20 = 400 := rfl
  rw [h400, ← hl, countP_range_getD b.data FREE (fun c => decide (c = FREE))]
  exact Iff.rfl

lemma place_none_board (b : Board) (t : ℕ) (h : (place b t).1 = none) :
    place b t = (none, b) :=
  placeGo_none_eq b t _ 0 h

lemma place_some_spec (b : Board) (hw : b.width = 20) {t u : ℕ} {b₂ : Board}
    (h : place b t = (some u, b₂)) :
    u < 400 ∧ b.data.getD u FREE = FREE ∧ b₂ = markBoard b u := by
  obtain ⟨hm, hf, hb⟩ := placeGo_some b t _ 0 u b₂ h
  rw [hw] at hm
  refine ⟨?_, hf, hb⟩
  have := List.mem_range.mp hm
  omega

/-! ### Invariants of boards reached during decode -/

lemma attacksP_symm {o p : ℕ × ℕ} (h : attacksP o p) : attacksP p o := by
  unfold attacksP at h ⊢
  omega

lemma countP_range_succ_at (n u : ℕ) (q p : ℕ → Bool) (hu : u < n)
    (hpoint : ∀ j, j < n → j ≠ u → q j = p j) (hq : q u = true) (hp : p u = false) :
    (List.range n).countP q = (List.range n).countP p + 1 := by
  induction n with
  | zero => omega
  | succ n ih =>
    rw [List.range_succ, List.countP_append, List.countP_append]
    by_cases hun : u = n
    · have heq : (List.range n).countP q = (List.range n).countP p := by
        apply List.countP_congr
        intro x hx
        rw [hpoint x (by have := List.mem_range.mp hx; omega)
          (by have := List.mem_range.mp hx; omega)]
      rw [heq, ← hun]
      simp [List.countP_cons, hq, hp]
    · have hqp : q n = p n := hpoint n (by omega) (fun e => hun e.symm)
      rw [ih (by omega) (fun j hj hju => hpoint j (by omega) hju)]
      simp [List.countP_cons, hqp]
      omega

lemma NewBoard_WF : WF (NewBoard BOARDSIZE) := by
  refine ⟨rfl, ?_⟩
  show (List.replicate (BOARDSIZE * BOARDSIZE) FREE).length = 400
  rw [List.length_replicate]
  decide

lemma NewBoard_getD {j : ℕ} (hj : j < 400) :
    (NewBoard BOARDSIZE).data.getD j FREE = FREE := by
  unfold NewBoard BOARDSIZE
  exact getD_replicate _ _ _ _ (by omega)

lemma NewBoard_sep : queensSeparated (NewBoard BOARDSIZE) := by
  intro i hi hq
  rw [NewBoard_getD hi] at hq
  cases hq

lemma countQueens_NewBoard : countQueens (NewBoard BOARDSIZE) = 0 := by
  unfold countQueens NewBoard
  simp [List.countP_replicate]

/-- A successful placement preserves well-formedness and queen separation,
adds exactly one queen to the board, picks a `FREE` cell, and never
downgrades a `QUEEN` or `COVERED` cell. -/
lemma place_step (b : Board) (hWF : WF b) (hsep : queensSeparated b) {t u : ℕ}
    {b₂ : Board} (h : place b t = (some u, b₂)) :
    WF b₂ ∧ queensSeparated b₂ ∧ countQueens b₂ = countQueens b + 1 ∧
      u < 400 ∧ b.data.getD u FREE = FREE ∧
      (∀ j, j < 400 → b.data.getD j FREE = QUEEN → b₂.data.getD j FREE = QUEEN) ∧
      (∀ j, j < 400 → b.data.getD j FREE = COVERED → b₂.data.getD j FREE = COVERED) := by
  obtain ⟨hw, hl⟩ := hWF
  obtain ⟨hu, hfree, hb2⟩ := place_some_spec b hw h
  subst hb2
  have hnoatt : ∀ j, j < 400 → b.data.getD j FREE = QUEEN →
      ¬attacksP (pos2xy u) (pos2xy j) := by
    intro j hj hq hatt
    by_cases hju : j = u
    · subst hju
      rw [hq] at hfree
      cases hfree
    · have hc := hsep j hj hq u hu (fun e => hju e.symm) (attacksP_symm hatt)
      rw [hfree] at hc
      cases hc
  have hchar := fun (j : ℕ) (hj : j < 400) => markBoard_getD b hw hl hu hj
  have hQpres : ∀ j, j < 400 → b.data.getD j FREE = QUEEN →
      (markBoard b u).data.getD j FREE = QUEEN := by
    intro j hj hq
    have hju : j ≠ u := by
      intro e
      subst e
      rw [hq] at hfree
      cases hfree
    rw [hchar j hj, if_neg hju, if_neg (fun hatt => hnoatt j hj hq hatt)]
    exact hq
  have hCpres : ∀ j, j < 400 → b.data.getD j FREE = COVERED →
      (markBoard b u).data.getD j FREE = COVERED := by
    intro j hj hc
    have hju : j ≠ u := by
      intro e
      subst e
      rw [hfree] at hc
      cases hc
    rw [hchar j hj, if_neg hju]
    by_cases hatt : attacksP (pos2xy u) (pos2xy j)
    · rw [if_pos hatt]
    · rw [if_neg hatt]
      exact hc
  refine ⟨⟨by rw [markBoard_width]; exact hw, by rw [markBoard_length]; exact hl⟩,
    ?_, ?_, hu, hfree, hQpres, hCpres⟩
  · intro i hi hq j hj hji hatt
    rw [hchar i hi] at hq
    by_cases hiu : i = u
    · subst hiu
      rw [hchar j hj, if_neg (fun e => hji e), if_pos hatt]
    · rw [if_neg hiu] at hq
      by_cases hattui : attacksP (pos2xy u) (pos2xy i)
      · rw [if_pos hattui] at hq
        cases hq
      · rw [if_neg hattui] at hq
        by_cases hju : j = u
        · rw [hju] at hji hatt
          have hc := hsep i hi hq u hu hji hatt
          rw [hfree] at hc
          cases hc
        · rw [hchar j hj, if_neg hju]
          by_cases hattuj : attacksP (pos2xy u) (pos2xy j)
          · rw [if_pos hattuj]
          · rw [if_neg hattuj]
            exact hsep i hi hq j hj hji hatt
  · have hml : (markBoard b u).data.length = 400 := by
      rw [markBoard_length]
      exact hl
    unfold countQueens
    rw [← countP_range_getD (markBoard b u).data FREE (fun c => decide (c = QUEEN)),
      ← countP_range_getD b.data FREE (fun c => decide (c = QUEEN)), hml, hl]
    apply countP_range_succ_at 400 u _ _ hu
    · intro j hj hju
      rw [hchar j hj, if_neg hju]
      by_cases hatt : attacksP (pos2xy u) (pos2xy j)
      · rw [if_pos hatt]
        have hnq : b.data.getD j FREE ≠ QUEEN := fun hq => hnoatt j hj hq hatt
        rw [decide_eq_false hnq]
        rfl
      · rw [if_neg hatt]
    · rw [hchar u hu, if_pos rfl]
      rfl
    · rw [hfree]
      rfl

/-- Decoding a genome from any invariant-satisfying start state keeps the
invariant: the board stays well-formed, queens stay separated, the queen
count on the board equals the success counter, and at most one queen is
added per gene. -/
lemma decode_fold_inv (sol : Solution) :
    ∀ (s : Board × ℕ), WF s.1 → queensSeparated s.1 → countQueens s.1 = s.2 →
      WF (sol.foldl decodeStep s).1 ∧ queensSeparated (sol.foldl decodeStep s).1 ∧
      countQueens (sol.foldl decodeStep s).1 = (sol.foldl decodeStep s).2 ∧
      (sol.foldl decodeStep s).2 ≤ s.2 + sol.length := by
  induction sol with
  | nil =>
    intro s h1 h2 h3
    exact ⟨h1, h2, h3, by simp⟩
  | cons g sol ih =>
    intro s h1 h2 h3
    rw [List.foldl_cons]
    rcases hp : place s.1 g with ⟨o, b₂⟩
    cases o with
    | some v =>
      obtain ⟨hW, hS, hC, _⟩ := place_step s.1 h1 h2 hp
      have hds : decodeStep s g = (b₂, s.2 + 1) := by
        simp only [decodeStep, hp]
      rw [hds]
      have hrec := ih (b₂, s.2 + 1) hW hS (by rw [hC, h3])
      refine ⟨hrec.1, hrec.2.1, hrec.2.2.1, ?_⟩
      have := hrec.2.2.2
      simp only [List.length_cons]
      omega
    | none =>
      have hn : (place s.1 g).1 = none := by rw [hp]
      have hb : b₂ = s.1 := by
        have heq := place_none_board s.1 g hn
        rw [hp] at heq
        exact (Prod.mk.injEq _ _ _ _).mp heq |>.2
      have hds : decodeStep s g = (s.1, s.2) := by
        simp only [decodeStep, hp, hb]
      rw [hds]
      have hrec := ih (s.1, s.2) h1 h2 h3
      refine ⟨hrec.1, hrec.2.1, hrec.2.2.1, ?_⟩
      have := hrec.2.2.2
      simp only [List.length_cons]
      omega

lemma generateBoard_inv (sol : Solution) :
    WF (generateBoard sol).1 ∧ queensSeparated (generateBoard sol).1 ∧
      countQueens (generateBoard sol).1 = (generateBoard sol).2 ∧
      (generateBoard sol).2 ≤ sol.length := by
  have := decode_fold_inv sol (NewBoard BOARDSIZE, 0) NewBoard_WF NewBoard_sep
    countQueens_NewBoard
  exact ⟨this.1, this.2.1, this.2.2.1, by have := this.2.2.2; simpa using this⟩

/-! ### The selection scan -/

lemma selectLoop_all_lt (xs : List ℚ) :
    ∀ (i : ℕ) (b : ℚ) (bi : ℕ) (n : ℚ) (ni : ℕ), (∀ f ∈ xs, f < b) →
      selectLoop xs i (b, bi, n, ni) = (b, bi, n, ni) := by
  induction xs with
  | nil => intro i b bi n ni _; rfl
  | cons f xs ih =>
    intro i b bi n ni h
    have hf : f < b := h f (List.mem_cons_self f xs)
    simp only [selectLoop]
    rw [if_neg (fun hle => absurd hf (not_lt.mpr hle))]
    exact ih (i + 1) b bi n ni (fun g hg => h g (List.mem_cons_of_mem f hg))

lemma selectLoop_append2 (xs ys : List ℚ) :
    ∀ (i : ℕ) (st : ℚ × ℕ × ℚ × ℕ),
      selectLoop (xs ++ ys) i st =
        selectLoop ys (i + xs.length) (selectLoop xs i st) := by
  induction xs with
  | nil => intro i st; simp [selectLoop]
  | cons f xs ih =>
    intro i st
    rcases st with ⟨b, bi, n, ni⟩
    simp only [List.cons_append, selectLoop, List.length_cons, List.append_eq]
    have e : i + 1 + xs.length = i + (xs.length + 1) := by omega
    by_cases hb : b ≤ f
    · rw [if_pos hb, if_pos hb, ih, e]
    · rw [if_neg hb, if_neg hb, ih, e]

lemma selectLoop_fst_le (M : ℚ) (xs : List ℚ) :
    ∀ (i : ℕ) (b : ℚ) (bi : ℕ) (n : ℚ) (ni : ℕ), b ≤ M → (∀ f ∈ xs, f ≤ M) →
      (selectLoop xs i (b, bi, n, ni)).1 ≤ M := by
  induction xs with
  | nil => intro i b bi n ni hb _; exact hb
  | cons f xs ih =>
    intro i b bi n ni hb h
    simp only [selectLoop]
    by_cases hbf : b ≤ f
    · rw [if_pos hbf]
      exact ih (i + 1) f i b bi (h f (List.mem_cons_self f xs))
        (fun g hg => h g (List.mem_cons_of_mem f hg))
    · rw [if_neg hbf]
      exact ih (i + 1) b bi n ni hb (fun g hg => h g (List.mem_cons_of_mem f hg))

/-! ### Lengths of operator results -/

lemma getD_set_self {α : Type} (l : List α) (i : ℕ) (v d : α) (h : i < l.length) :
    (l.set i v).getD i d = v := by
  rw [getD_set, if_pos ⟨rfl, h⟩]

lemma length_ite_set {α : Type} (c : Prop) [Decidable c] (l : List α) (a : ℕ) (v : α) :
    (if c then l.set a v else l).length = l.length := by
  split_ifs <;> simp

lemma replacementPhase_length (pop : List Solution) (i : ℕ) (f average rReplace : ℚ) :
    (replacementPhase pop i f average rReplace).length = pop.length := by
  unfold replacementPhase
  split_ifs <;> simp [List.length_set]

/-! ## The claims -/

/-- C3 counterexample: on the fitness vector `[1/2, 3/10, 1/2]` the
individuals at indices 0 and 2 share the maximum fitness `1/2`.  The scan
(with the first generation's initial `bestfitnessindex = 0`) ends with
`bestIndex = 2` but `runnerUpIndex = 0`, which is not the index `2 - 1 = 1`
immediately preceding `bestIndex` in the scan. -/
theorem claim3_counterexample :
    selectBest [1/2, 3/10, 1/2] 0 = (1/2, 2, 1/2, 0) ∧ (0 : ℕ) ≠ 2 - 1 := by
  constructor
  · norm_num [selectBest, selectLoop]
  · decide

/-- C3 (amended): in the best/runner-up scan over a fitness vector of
nonnegative values in which at least two indices attain the maximum `M`
(vector `l₁ ++ M :: l₂ ++ M :: l₃` with `l₁` below-or-equal and `l₂`, `l₃`
strictly below `M`), `bestIndex` ends as the last index attaining the
maximum and `runnerUpIndex` as the previous index attaining the maximum —
the index at which the running best was last updated before the final
update — with runner-up fitness `M`; `runnerUpIndex` is not in general
`bestIndex - 1`.  This holds for any carried-over initial
`bestfitnessindex`. -/
theorem claim3_amended (l₁ l₂ l₃ : List ℚ) (M : ℚ) (bi₀ : ℕ) (hM : 0 ≤ M)
    (h1 : ∀ f ∈ l₁, f ≤ M) (h2 : ∀ f ∈ l₂, f < M) (h3 : ∀ f ∈ l₃, f < M) :
    selectBest (l₁ ++ M :: (l₂ ++ M :: l₃)) bi₀ =
      (M, l₁.length + 1 + l₂.length, M, l₁.length) := by
  unfold selectBest
  rw [selectLoop_append2]
  rcases hst : selectLoop l₁ 0 (0, bi₀, 0, 0) with ⟨b₁, i₁, n₁, ni₁⟩
  have hb₁ : b₁ ≤ M := by
    have hle := selectLoop_fst_le M l₁ 0 0 bi₀ 0 0 hM h1
    rw [hst] at hle
    exact hle
  simp only [selectLoop, Nat.zero_add]
  rw [if_pos hb₁, selectLoop_append2, selectLoop_all_lt l₂ _ _ _ _ _ h2]
  simp only [selectLoop]
  rw [if_pos (le_refl M), selectLoop_all_lt l₃ _ _ _ _ _ h3]

/-- C3 amended witness at the counterexample vector with carried-over
index 5: decomposition `l₁ = []`, `l₂ = [3/10]`, `l₃ = []`, `M = 1/2`. -/
theorem claim3_amended_witness :
    (0 ≤ (1/2 : ℚ)) ∧ (∀ f ∈ ([] : List ℚ), f ≤ 1/2) ∧
      (∀ f ∈ [(3/10 : ℚ)], f < 1/2) ∧
      selectBest [1/2, 3/10, 1/2] 5 = (1/2, 2, 1/2, 0) :=
  ⟨by norm_num, by norm_num, by norm_num,
    claim3_amended [] [3/10] [] (1/2) 5 (by norm_num) (by norm_num) (by norm_num)
      (by norm_num)⟩

/-- C10: the best-index variable is not reset between generations.  If in
a later generation the condition `fit[i] >= bestfitness` fires only at
index 0 — equivalently, every later entry is strictly below `fit[0]`,
e.g. when index 0 holds the unique strict maximum — the scan returns
runner-up fitness `0.0` and leaves the runner-up index equal to the
carried-over previous generation's best index `bi₀`, which `main` then
uses as the second crossover parent `pop[nextbestfitnessindex]`. -/
theorem claim10_carryover (f₀ : ℚ) (rest : List ℚ) (bi₀ : ℕ) (h0 : 0 ≤ f₀)
    (hrest : ∀ f ∈ rest, f < f₀) :
    selectBest (f₀ :: rest) bi₀ = (f₀, 0, 0, bi₀) := by
  unfold selectBest
  simp only [selectLoop]
  rw [if_pos h0]
  exact selectLoop_all_lt rest 1 f₀ 0 0 bi₀ hrest

/-- C10 witness: generation fitness `[7/10, 3/10, 1/2]` with previous best
index 9: the runner-up slot keeps index 9 and fitness 0. -/
theorem claim10_witness :
    (0 ≤ (7/10 : ℚ)) ∧ (∀ f ∈ [(3/10 : ℚ), 1/2], f < 7/10) ∧
      selectBest [7/10, 3/10, 1/2] 9 = (7/10, 0, 0, 9) :=
  ⟨by norm_num, by norm_num,
    claim10_carryover (7/10) [3/10, 1/2] 9 (by norm_num) (by norm_num)⟩

/-- C8: decoding is a pure function of the genome: in any sequence of
decodes (`runDecodes` modelled as mapping `generateBoard`/`fitness` over
the genomes decoded in order), the result at a given position equals the
decode of that genome alone, regardless of the decodes before or after
it — every decode starts from the freshly allocated `NewBoard` and
consults no other state. -/
theorem claim8_decode_deterministic (pre post : List Solution) (sol : Solution) :
    ((pre ++ sol :: post).map generateBoard).getD pre.length (NewBoard BOARDSIZE, 0) =
      generateBoard sol ∧
    ((pre ++ sol :: post).map fitness).getD pre.length 0 = fitness sol := by
  constructor
  · rw [List.map_append, List.map_cons,
      show pre.length = (pre.map generateBoard).length from
        (List.length_map pre generateBoard).symm]
    exact getD_append_cons _ _ _ _
  · rw [List.map_append, List.map_cons,
      show pre.length = (pre.map fitness).length from
        (List.length_map pre fitness).symm]
    exact getD_append_cons _ _ _ _

/-- C9: single-point crossover with parents of length `QUEENS` and cut
point `p ≤ QUEENS` yields a genome of length `QUEENS` whose entries below
`p` are `a`'s and whose entries from `p` on are `b`'s.  The embedding
returns a fresh list, as the source builds the child in a new
`NewSolution` buffer, so the parents are unchanged. -/
theorem claim9_crossover_spec (a b : Solution) (p : ℕ)
    (ha : a.length = QUEENS) (hb : b.length = QUEENS) (hp : p ≤ QUEENS) :
    (crossover a b p QUEENS).length = QUEENS ∧
    (∀ i, i < p → (crossover a b p QUEENS).getD i 0 = a.getD i 0) ∧
    (∀ i, p ≤ i → i < QUEENS → (crossover a b p QUEENS).getD i 0 = b.getD i 0) := by
  have hQ : QUEENS = 20 := rfl
  simp only [crossover, NewSolution]
  have hilen : (((List.range p).foldl (fun c i => c.set i (a.getD i 0))
      (List.replicate QUEENS 0))).length = QUEENS := by
    rw [foldl_set_length, List.length_replicate]
  refine ⟨?_, ?_, ?_⟩
  · rw [foldl_set_length, hilen]
  · intro i hip
    rw [foldl_set_getD (fun i => b.getD i 0), if_neg, foldl_set_getD (fun i => a.getD i 0),
      if_pos ⟨List.mem_range.mpr hip, by rw [List.length_replicate]; omega⟩]
    rintro ⟨hmem, _⟩
    have := List.mem_range'_1.mp hmem
    omega
  · intro i hpi hiQ
    rw [foldl_set_getD (fun i => b.getD i 0),
      if_pos ⟨List.mem_range'_1.mpr ⟨hpi, by omega⟩, by rw [hilen]; omega⟩]

/-- C9 witness at concrete parents and cut point 7. -/
theorem claim9_witness :
    (List.replicate 20 3 : Solution).length = QUEENS ∧
      (List.replicate 20 5 : Solution).length = QUEENS ∧ 7 ≤ QUEENS ∧
      ((crossover (List.replicate 20 3) (List.replicate 20 5) 7 QUEENS).length = QUEENS ∧
        (∀ i, i < 7 →
          (crossover (List.replicate 20 3) (List.replicate 20 5) 7 QUEENS).getD i 0 =
            (List.replicate 20 3 : Solution).getD i 0) ∧
        (∀ i, 7 ≤ i → i < QUEENS →
          (crossover (List.replicate 20 3) (List.replicate 20 5) 7 QUEENS).getD i 0 =
            (List.replicate 20 5 : Solution).getD i 0)) :=
  ⟨by decide, by decide, by decide,
    claim9_crossover_spec (List.replicate 20 3) (List.replicate 20 5) 7
      (by decide) (by decide) (by decide)⟩

/-- C5: `place` fails with the "No available position" error exactly when
the ordinal `t` is at least the number of `FREE` cells on the current
board; on failure no cell's state is changed (the returned board is the
input board), the decoder does not count a queen for that gene, and the
decode fold simply continues with the remaining genes on the same state. -/
theorem claim5_place_fail (b : Board) (hWF : WF b) (t c : ℕ) :
    ((place b t).1 = none ↔ numFree b ≤ t) ∧
    ((place b t).1 = none →
      place b t = (none, b) ∧ decodeStep (b, c) t = (b, c) ∧
      ∀ rest : List ℕ,
        (t :: rest).foldl decodeStep (b, c) = rest.foldl decodeStep (b, c)) := by
  obtain ⟨hw, hl⟩ := hWF
  refine ⟨place_none_iff b hw hl t, ?_⟩
  intro hn
  have hb := place_none_board b t hn
  have hds : decodeStep (b, c) t = (b, c) := by
    simp only [decodeStep, hb]
  exact ⟨hb, hds, fun rest => by rw [List.foldl_cons, hds]⟩

/-- C5 witness: the fresh board has 400 free cells, so ordinal 400 fails. -/
theorem claim5_witness :
    WF (NewBoard BOARDSIZE) ∧
    (((place (NewBoard BOARDSIZE) 400).1 = none ↔ numFree (NewBoard BOARDSIZE) ≤ 400) ∧
      ((place (NewBoard BOARDSIZE) 400).1 = none →
        place (NewBoard BOARDSIZE) 400 = (none, NewBoard BOARDSIZE) ∧
        decodeStep (NewBoard BOARDSIZE, 0) 400 = (NewBoard BOARDSIZE, 0) ∧
        ∀ rest : List ℕ,
          (400 :: rest).foldl decodeStep (NewBoard BOARDSIZE, 0) =
            rest.foldl decodeStep (NewBoard BOARDSIZE, 0))) :=
  ⟨NewBoard_WF, claim5_place_fail (NewBoard BOARDSIZE) NewBoard_WF 400 0⟩

/-- C7: for genomes of length `QUEENS` (genes in `[0, N²)`), fitness is in
`[0, 1]` and equals the number of successfully placed queens divided by
`QUEENS`. -/
theorem claim7_fitness_bounds (sol : Solution) (hlen : sol.length = QUEENS)
    (hrange : ∀ g ∈ sol, g < BOARDSIZE * BOARDSIZE) :
    0 ≤ fitness sol ∧ fitness sol ≤ 1 ∧
      fitness sol = ((generateBoard sol).2 : ℚ) / (QUEENS : ℚ) := by
  have hcnt : (generateBoard sol).2 ≤ 20 := by
    have hc := (generateBoard_inv sol).2.2.2
    rw [hlen] at hc
    exact hc
  have hQ : ((QUEENS : ℕ) : ℚ) = 20 := by norm_num [QUEENS]
  refine ⟨?_, ?_, rfl⟩
  · unfold fitness
    positivity
  · unfold fitness
    rw [hQ, div_le_one (by norm_num)]
    exact_mod_cast hcnt

/-- C7 witness at the all-zero genome. -/
theorem claim7_witness :
    (List.replicate 20 0 : Solution).length = QUEENS ∧
    (∀ g ∈ (List.replicate 20 0 : Solution), g < BOARDSIZE * BOARDSIZE) ∧
    (0 ≤ fitness (List.replicate 20 0) ∧ fitness (List.replicate 20 0) ≤ 1 ∧
      fitness (List.replicate 20 0) =
        ((generateBoard (List.replicate 20 0)).2 : ℚ) / (QUEENS : ℚ)) :=
  ⟨by decide, by decide,
    claim7_fitness_bounds (List.replicate 20 0) (by decide) (by decide)⟩

/-- C2: for genomes of length `QUEENS` (genes in `[0, N²)`),
`fitness = 1` holds exactly when the decoded board holds `QUEENS` queens;
moreover the queens on a decoded board are always pairwise non-attacking
(no shared row, column or diagonal), so `fitness = 1` is equivalent to the
decoded board holding exactly `QUEENS` pairwise non-attacking queens. -/
theorem claim2_fitness_one_iff (sol : Solution) (hlen : sol.length = QUEENS)
    (hrange : ∀ g ∈ sol, g < BOARDSIZE * BOARDSIZE) :
    fitness sol = 1 ↔
      (countQueens (generateBoard sol).1 = QUEENS ∧
        ∀ i j, i < 400 → j < 400 → i ≠ j →
          (generateBoard sol).1.data.getD i FREE = QUEEN →
          (generateBoard sol).1.data.getD j FREE = QUEEN →
          ¬attacksP (pos2xy i) (pos2xy j)) := by
  obtain ⟨hWF, hsep, hcq, hle⟩ := generateBoard_inv sol
  have hpair : ∀ i j, i < 400 → j < 400 → i ≠ j →
      (generateBoard sol).1.data.getD i FREE = QUEEN →
      (generateBoard sol).1.data.getD j FREE = QUEEN →
      ¬attacksP (pos2xy i) (pos2xy j) := by
    intro i j hi hj hij hqi hqj hatt
    have hc := hsep i hi hqi j hj (fun e => hij e.symm) hatt
    rw [hqj] at hc
    cases hc
  have hfit : fitness sol = 1 ↔ (generateBoard sol).2 = QUEENS := by
    unfold fitness
    have hQ : ((QUEENS : ℕ) : ℚ) = 20 := by norm_num [QUEENS]
    rw [hQ, div_eq_one_iff_eq (by norm_num)]
    constructor
    · intro h
      have h20 : (generateBoard sol).2 = 20 := by exact_mod_cast h
      exact h20
    · intro h
      rw [h]
      exact hQ
  rw [hfit]
  constructor
  · intro h
    exact ⟨by rw [hcq, h], hpair⟩
  · rintro ⟨h, -⟩
    rw [← hcq]
    exact h

/-- C2 witness at the all-zero genome. -/
theorem claim2_witness :
    (List.replicate 20 0 : Solution).length = QUEENS ∧
    (∀ g ∈ (List.replicate 20 0 : Solution), g < BOARDSIZE * BOARDSIZE) ∧
    (fitness (List.replicate 20 0) = 1 ↔
      (countQueens (generateBoard (List.replicate 20 0)).1 = QUEENS ∧
        ∀ i j, i < 400 → j < 400 → i ≠ j →
          (generateBoard (List.replicate 20 0)).1.data.getD i FREE = QUEEN →
          (generateBoard (List.replicate 20 0)).1.data.getD j FREE = QUEEN →
          ¬attacksP (pos2xy i) (pos2xy j))) :=
  ⟨by decide, by decide,
    claim2_fitness_one_iff (List.replicate 20 0) (by decide) (by decide)⟩

/-- C4: during decode of a genome of length `QUEENS` with genes in
`[0, N²)`, each successful placement target was `FREE` on the board
reached after the preceding genes — never an already-`QUEEN` cell (no
cell is marked `QUEEN` twice) and never a `COVERED` cell — and the
placement's covering pass leaves every existing `QUEEN` cell `QUEEN` and
every existing `COVERED` cell `COVERED`. -/
theorem claim4_decode_no_reuse (pre : List ℕ) (g : ℕ) (post : List ℕ)
    (hlen : (pre ++ g :: post).length = QUEENS)
    (hrange : ∀ a ∈ pre ++ g :: post, a < BOARDSIZE * BOARDSIZE) :
    ∀ u b₂, place (generateBoard pre).1 g = (some u, b₂) →
      (generateBoard pre).1.data.getD u FREE = FREE ∧
      (generateBoard pre).1.data.getD u FREE ≠ QUEEN ∧
      (generateBoard pre).1.data.getD u FREE ≠ COVERED ∧
      (∀ j, j < 400 → (generateBoard pre).1.data.getD j FREE = QUEEN →
        b₂.data.getD j FREE = QUEEN) ∧
      (∀ j, j < 400 → (generateBoard pre).1.data.getD j FREE = COVERED →
        b₂.data.getD j FREE = COVERED ∧ u ≠ j) := by
  intro u b₂ hplace
  obtain ⟨hWF, hsep, -, -⟩ := generateBoard_inv pre
  obtain ⟨-, -, -, -, hfree, hQp, hCp⟩ :=
    place_step (generateBoard pre).1 hWF hsep hplace
  have hnq : (generateBoard pre).1.data.getD u FREE ≠ QUEEN := by
    rw [hfree]
    intro h
    cases h
  have hnc : (generateBoard pre).1.data.getD u FREE ≠ COVERED := by
    rw [hfree]
    intro h
    cases h
  refine ⟨hfree, hnq, hnc, hQp, ?_⟩
  intro j hj hc
  refine ⟨hCp j hj hc, ?_⟩
  intro e
  rw [← e, hfree] at hc
  cases hc

/-- C4 witness: first gene 0 of the all-zero genome placed on the fresh
board (empty prefix). -/
theorem claim4_witness :
    (([] : List ℕ) ++ 0 :: List.replicate 19 0).length = QUEENS ∧
    (∀ a ∈ ([] : List ℕ) ++ 0 :: List.replicate 19 0, a < BOARDSIZE * BOARDSIZE) ∧
    ((generateBoard ([] : Solution)).1.data.getD 0 FREE = FREE ∧
      (generateBoard ([] : Solution)).1.data.getD 0 FREE ≠ QUEEN ∧
      (generateBoard ([] : Solution)).1.data.getD 0 FREE ≠ COVERED ∧
      (∀ j, j < 400 → (generateBoard ([] : Solution)).1.data.getD j FREE = QUEEN →
        (place (generateBoard ([] : Solution)).1 0).2.data.getD j FREE = QUEEN) ∧
      (∀ j, j < 400 → (generateBoard ([] : Solution)).1.data.getD j FREE = COVERED →
        (place (generateBoard ([] : Solution)).1 0).2.data.getD j FREE = COVERED ∧
          0 ≠ j)) :=
  ⟨by decide, by decide,
    claim4_decode_no_reuse [] 0 (List.replicate 19 0) (by decide) (by decide)
      0 (place (generateBoard ([] : Solution)).1 0).2
      (by
        have h1 : (place (generateBoard ([] : Solution)).1 0).1 = some 0 := rfl
        rw [← h1])⟩

/-- C6: a successful `place` touches only in-bounds cells: the chosen
index is below `N²`, the data stays `N²` cells wide, every cell whose
state changes is one of the `N²` allocated cells and lies on the queen's
row, column or one of its two diagonals (both coordinates inside
`[0, N)`) — diagonal coordinates that fall off the board are skipped, not
wrapped onto other cells — and conversely every other in-board cell on
those lines is marked `COVERED`. -/
theorem claim6_place_inbounds (b : Board) (hWF : WF b) (t : ℕ) :
    ∀ u b₂, place b t = (some u, b₂) →
      u < 400 ∧ b₂.width = 20 ∧ b₂.data.length = 400 ∧
      (∀ j, b₂.data.getD j FREE ≠ b.data.getD j FREE →
        j < 400 ∧ (j = u ∨ attacksP (pos2xy u) (pos2xy j))) ∧
      (∀ j, j < 400 → j ≠ u → attacksP (pos2xy u) (pos2xy j) →
        b₂.data.getD j FREE = COVERED) := by
  intro u b₂ h
  obtain ⟨hw, hl⟩ := hWF
  obtain ⟨hu, hfree, hb₂⟩ := place_some_spec b hw h
  subst hb₂
  have hchar := fun (j : ℕ) (hj : j < 400) => markBoard_getD b hw hl hu hj
  refine ⟨hu, by rw [markBoard_width]; exact hw,
    by rw [markBoard_length]; exact hl, ?_, ?_⟩
  · intro j hdiff
    by_cases hj : j < 400
    · refine ⟨hj, ?_⟩
      by_contra hcon
      push_neg at hcon
      obtain ⟨hju, hatt⟩ := hcon
      rw [hchar j hj, if_neg hju, if_neg hatt] at hdiff
      exact hdiff rfl
    · exfalso
      have h1 : (markBoard b u).data.getD j FREE = FREE :=
        getD_of_length_le _ _ _ (by rw [markBoard_length, hl]; omega)
      have h2 : b.data.getD j FREE = FREE :=
        getD_of_length_le _ _ _ (by rw [hl]; omega)
      rw [h1, h2] at hdiff
      exact hdiff rfl
  · intro j hj hju hatt
    rw [hchar j hj, if_neg hju, if_pos hatt]

/-- C6 witness: placing ordinal 0 on the fresh board. -/
theorem claim6_witness :
    WF (NewBoard BOARDSIZE) ∧
    ((0 : ℕ) < 400 ∧ (place (NewBoard BOARDSIZE) 0).2.width = 20 ∧
      (place (NewBoard BOARDSIZE) 0).2.data.length = 400 ∧
      (∀ j, (place (NewBoard BOARDSIZE) 0).2.data.getD j FREE ≠
          (NewBoard BOARDSIZE).data.getD j FREE →
        j < 400 ∧ (j = 0 ∨ attacksP (pos2xy 0) (pos2xy j))) ∧
      (∀ j, j < 400 → j ≠ 0 → attacksP (pos2xy 0) (pos2xy j) →
        (place (NewBoard BOARDSIZE) 0).2.data.getD j FREE = COVERED)) :=
  ⟨NewBoard_WF,
    claim6_place_inbounds (NewBoard BOARDSIZE) NewBoard_WF 0 0
      (place (NewBoard BOARDSIZE) 0).2
      (by
        have h1 : (place (NewBoard BOARDSIZE) 0).1 = some 0 := rfl
        rw [← h1])⟩

/-- C1: every replacement site of the operator pass executes
`pop[i] = NewSolution(QUEENS)`, and `NewSolution` zero-initializes.  So
whenever one of the three unconditional replacement branches or the 50%
branch fires, the genome written at `i` by the replacement chain is the
constant all-zero genome, and when the elitism skip does not fire and the
new-population-rate branch fires, the genome left at `i` by the whole
operator step is again the all-zero genome — never a fresh random genome
with genes drawn uniformly from `[0, N²)` as population initialization
builds them (`NewRandomSolution`, whose genes are exactly the uniform
draws: last conjunct). -/
theorem claim1_replacement_writes_zero_genome
    (pop : List Solution) (i : ℕ) (fit : List ℚ)
    (average bestfitness nextbestfitness : ℚ)
    (bestfitnessindex nextbestfitnessindex : ℕ)
    (rReplace rElite rMut rCross rNew : ℚ)
    (mutTarget mutPos mutVal crossoverpoint : ℕ)
    (hi : i < pop.length)
    (hcond : (average > 0.7 ∧ fit.getD i 0 < 0.5) ∨
      (average > 0.8 ∧ fit.getD i 0 < 0.6) ∨
      (average > 0.9 ∧ fit.getD i 0 < 0.7) ∨
      (fit.getD i 0 < average * 0.3 ∧ rReplace ≤ 0.5))
    (hskip : ¬(fit.getD i 0 > bestfitness * 0.9 ∧ rElite ≤ 0.9))
    (hnew : rNew ≤ (if average > 0.9 then (0.4 : ℚ) else 0.2)) :
    (replacementPhase pop i (fit.getD i 0) average rReplace).getD i [] =
      List.replicate 20 0 ∧
    (operatorStep pop i fit average bestfitness nextbestfitness
        bestfitnessindex nextbestfitnessindex rReplace rElite rMut rCross rNew
        mutTarget mutPos mutVal crossoverpoint).getD i [] = List.replicate 20 0 ∧
    NewSolution QUEENS = List.replicate 20 0 ∧
    (∀ draws : ℕ → ℕ, NewRandomSolution QUEENS draws = (List.range 20).map draws) := by
  refine ⟨?_, ?_, rfl, fun draws => rfl⟩
  · unfold replacementPhase
    split_ifs with h1 h2 h3 h4 h5
    · exact getD_set_self pop i _ [] hi
    · exact getD_set_self pop i _ [] hi
    · exact getD_set_self pop i _ [] hi
    · exact getD_set_self pop i _ [] hi
    · rcases hcond with hc | hc | hc | hc
      · exact absurd hc h1
      · exact absurd hc h2
      · exact absurd hc h3
      · exact absurd hc.2 h5
    · rcases hcond with hc | hc | hc | hc
      · exact absurd hc h1
      · exact absurd hc h2
      · exact absurd hc h3
      · exact absurd hc.1 h4
  · simp only [operatorStep]
    rw [if_neg hskip, if_pos hnew]
    apply getD_set_self
    simp only [length_ite_set, List.length_set, replacementPhase_length]
    exact hi

/-- C1 witness: `average = 3/4 > 0.7` and `fit[0] = 2/5 < 0.5` fire the
first unconditional replacement branch; the elitism draw is 1 (no skip)
and the new-variation draw `1/10 ≤ 0.2` fires the final branch.  Both
sites write `[0, …, 0]`. -/
theorem claim1_witness :
    (0 : ℕ) < ([List.replicate 20 7] : List Solution).length ∧
    (((3/4 : ℚ) > 0.7 ∧ ([(2/5 : ℚ)].getD 0 0 : ℚ) < 0.5) ∨
      ((3/4 : ℚ) > 0.8 ∧ ([(2/5 : ℚ)].getD 0 0 : ℚ) < 0.6) ∨
      ((3/4 : ℚ) > 0.9 ∧ ([(2/5 : ℚ)].getD 0 0 : ℚ) < 0.7) ∨
      (([(2/5 : ℚ)].getD 0 0 : ℚ) < (3/4 : ℚ) * 0.3 ∧ (1/2 : ℚ) ≤ 0.5)) ∧
    ¬(([(2/5 : ℚ)].getD 0 0 : ℚ) > (2/5 : ℚ) * 0.9 ∧ (1 : ℚ) ≤ 0.9) ∧
    (1/10 : ℚ) ≤ (if (3/4 : ℚ) > 0.9 then (0.4 : ℚ) else 0.2) ∧
    ((replacementPhase [List.replicate 20 7] 0 ([(2/5 : ℚ)].getD 0 0) (3/4)
        (1/2)).getD 0 [] = List.replicate 20 0 ∧
      (operatorStep [List.replicate 20 7] 0 [(2/5 : ℚ)] (3/4) (2/5) (3/10) 0 0
        (1/2) 1 (1/2) (1/2) (1/10) 0 0 0 0).getD 0 [] = List.replicate 20 0 ∧
      NewSolution QUEENS = List.replicate 20 0 ∧
      (∀ draws : ℕ → ℕ, NewRandomSolution QUEENS draws = (List.range 20).map draws)) :=
  ⟨by decide, by left; constructor <;> norm_num,
    by norm_num,
    by rw [if_neg (by norm_num)]; norm_num,
    claim1_replacement_writes_zero_genome [List.replicate 20 7] 0 [(2/5 : ℚ)]
      (3/4) (2/5) (3/10) 0 0 (1/2) 1 (1/2) (1/2) (1/10) 0 0 0 0
      (by decide) (by left; constructor <;> norm_num) (by norm_num)
      (by rw [if_neg (by norm_num)]; norm_num)⟩

end NQueens
